import Mathlib

/-!
# Verification of the m-lab `pusher` core

A shallow embedding of the central algorithms of the `pusher` repository,
together with theorems settling the specification claims about them.

Go strings are modelled as lists of characters (`GoStr`).  The Go standard
library string operations used by the code (`strings.Split`, `strings.Join`,
`strings.HasPrefix`, `strings.TrimPrefix`, `strings.HasSuffix`) are
translated as recursive functions on `GoStr`.
-/

namespace Pusher

/-- Go strings, modelled as lists of characters. -/
abbrev GoStr := List Char

/-- `strings.Split(s, sep)` for a one-character separator: splits around every
occurrence of `sep`; the empty string yields `[[]]`, like Go's `[""]`. -/
def goSplit (sep : Char) : GoStr → List GoStr
  | [] => [[]]
  | c :: rest =>
    if c = sep then [] :: goSplit sep rest
    else
      match goSplit sep rest with
      | [] => [[c]]
      | h :: t => (c :: h) :: t

/-- `strings.Join(parts, sep)` for a one-character separator. -/
def goJoin (sep : Char) : List GoStr → GoStr
  | [] => []
  | [p] => p
  | p :: ps => p ++ sep :: goJoin sep ps

/-- `strings.HasPrefix(s, p)`. -/
def goStartsWith : GoStr → GoStr → Bool
  | _, [] => true
  | [], _ :: _ => false
  | c :: s, d :: p => c = d && goStartsWith s p

/-- `strings.TrimPrefix(s, p)`: drops the leading `p` when `s` starts with it,
otherwise returns `s` unchanged. -/
def goTrimStart (s p : GoStr) : GoStr :=
  if goStartsWith s p then s.drop p.length else s

/-- `strings.HasSuffix(s, p)`. -/
def goEndsWith (s p : GoStr) : Bool :=
  goStartsWith s.reverse p.reverse

namespace Filename

/-- `filename.System`: a filename suitable for passing directly to
`os.Remove`. -/
structure System where
  path : GoStr
deriving DecidableEq, Repr

/-- `filename.Internal`: the pathname of a data file inside of the tarfile. -/
structure Internal where
  path : GoStr
deriving DecidableEq, Repr

/-- `System.Internal`: removes the path information that is not relevant to
the tarfile, by `strings.TrimPrefix` of the root directory. -/
def System.Internal (s rootDirectory : System) : Internal :=
  ⟨goTrimStart s.path rootDirectory.path⟩

/-- `Internal.Subdir`: the subdirectory of the `Internal` filename, up to
three levels deep.  Splits on `/`; a path yielding at most one segment gives
the empty string (logged in the source, not rejected). -/
def Internal.Subdir (l : Internal) : GoStr :=
  let dirs := goSplit '/' l.path
  if dirs.length ≤ 1 then []
  else
    let k := min (dirs.length - 1) 3
    goJoin '/' (dirs.take k)

end Filename

/-! ## Lemmas about the Go string operations -/

theorem goSplit_ne_nil (sep : Char) (l : GoStr) : goSplit sep l ≠ [] := by
  induction l with
  | nil => simp [goSplit]
  | cons c rest ih =>
    simp only [goSplit]
    split
    · simp
    · cases h : goSplit sep rest with
      | nil => simp
      | cons a t => simp

theorem goSplit_length_pos (sep : Char) (l : GoStr) : 0 < (goSplit sep l).length := by
  cases h : goSplit sep l with
  | nil => exact absurd h (goSplit_ne_nil sep l)
  | cons a t => simp

/-- The split has a single piece exactly when the separator does not occur. -/
theorem goSplit_length_eq_one_iff (sep : Char) (l : GoStr) :
    (goSplit sep l).length = 1 ↔ sep ∉ l := by
  induction l with
  | nil => simp [goSplit]
  | cons c rest ih =>
    simp only [goSplit]
    by_cases hc : c = sep
    · simp only [if_pos hc, List.length_cons]
      have hpos := goSplit_length_pos sep rest
      constructor
      · intro h
        exfalso
        omega
      · intro h
        exact absurd (List.mem_cons.mpr (Or.inl hc.symm)) h
    · rw [if_neg hc]
      cases h : goSplit sep rest with
      | nil => exact absurd h (goSplit_ne_nil sep rest)
      | cons a t =>
        simp only [List.length_cons]
        rw [h] at ih
        simp only [List.length_cons] at ih
        constructor
        · intro hlen
          have hrest : sep ∉ rest := ih.mp hlen
          intro hmem
          rcases List.mem_cons.mp hmem with h1 | h2
          · exact hc h1.symm
          · exact hrest h2
        · intro hmem
          exact ih.mpr (fun h2 => hmem (List.mem_cons_of_mem c h2))

/-- No piece of the split contains the separator. -/
theorem goSplit_pieces_no_sep (sep : Char) (l : GoStr) :
    ∀ p ∈ goSplit sep l, sep ∉ p := by
  induction l with
  | nil => intro p hp; simp [goSplit] at hp; simp [hp]
  | cons c rest ih =>
    intro p hp
    simp only [goSplit] at hp
    by_cases hc : c = sep
    · rw [if_pos hc] at hp
      rcases List.mem_cons.mp hp with h1 | h2
      · simp [h1]
      · exact ih p h2
    · rw [if_neg hc] at hp
      cases h : goSplit sep rest with
      | nil => exact absurd h (goSplit_ne_nil sep rest)
      | cons a t =>
        rw [h] at hp
        rcases List.mem_cons.mp hp with h1 | h2
        · subst h1
          intro hmem
          rcases List.mem_cons.mp hmem with h3 | h4
          · exact hc h3.symm
          · exact ih a (h ▸ List.mem_cons_self a t) h4
        · exact ih p (h ▸ List.mem_cons_of_mem a h2)

/-- Splitting a string that does not contain the separator gives it back
as the single piece. -/
theorem goSplit_of_no_sep (sep : Char) (l : GoStr) (h : sep ∉ l) :
    goSplit sep l = [l] := by
  induction l with
  | nil => simp [goSplit]
  | cons c rest ih =>
    have hc : c ≠ sep := fun he => h (he ▸ List.mem_cons_self c rest)
    have hrest : sep ∉ rest := fun h2 => h (List.mem_cons_of_mem c h2)
    simp only [goSplit]
    rw [if_neg (fun he => hc he)]
    rw [ih hrest]

/-- Splitting past a leading separator-free chunk. -/
theorem goSplit_append_sep (sep : Char) (p rest : GoStr) (h : sep ∉ p) :
    goSplit sep (p ++ sep :: rest) = p :: goSplit sep rest := by
  induction p with
  | nil => simp [goSplit]
  | cons c cs ih =>
    have hc : c ≠ sep := fun he => h (he ▸ List.mem_cons_self c cs)
    have hcs : sep ∉ cs := fun h2 => h (List.mem_cons_of_mem c h2)
    simp only [List.cons_append, goSplit]
    rw [if_neg (fun he => hc he)]
    simp only [List.append_eq, ih hcs]

/-- `goSplit` is a left inverse of `goJoin` on nonempty lists of
separator-free pieces. -/
theorem goSplit_goJoin (sep : Char) (ps : List GoStr) (hne : ps ≠ [])
    (h : ∀ p ∈ ps, sep ∉ p) : goSplit sep (goJoin sep ps) = ps := by
  induction ps with
  | nil => exact absurd rfl hne
  | cons p ps ih =>
    cases ps with
    | nil =>
      simp only [goJoin]
      exact goSplit_of_no_sep sep p (h p (List.mem_cons_self p []))
    | cons q qs =>
      have hjoin : goJoin sep (p :: q :: qs) = p ++ sep :: goJoin sep (q :: qs) := rfl
      rw [hjoin, goSplit_append_sep sep p _ (h p (List.mem_cons_self p _))]
      rw [ih (by simp) (fun r hr => h r (List.mem_cons_of_mem p hr))]

/-- `goStartsWith s p` means `p` followed by the rest of `s` gives back `s`. -/
theorem goStartsWith_append (s p : GoStr) (h : goStartsWith s p = true) :
    p ++ s.drop p.length = s := by
  induction p generalizing s with
  | nil => simp
  | cons d ds ih =>
    cases s with
    | nil => simp [goStartsWith] at h
    | cons c cs =>
      simp only [goStartsWith, Bool.and_eq_true, decide_eq_true_eq] at h
      obtain ⟨hcd, hrest⟩ := h
      subst hcd
      simp only [List.cons_append, List.length_cons, List.drop_succ_cons]
      rw [ih cs hrest]

/-! ## Claims C8 and C9: the filename operations -/

/-- **C8.** For every `InternalPath`, `Subdir()` returns the first up to three
path segments joined by `/` as the grouping key — its segments are the first
`min (n-1) 3 ≤ 3` segments of the path — and a path containing no `/`
separator yields the empty string (logged but not rejected). -/
theorem Internal_Subdir_spec (l : Filename.Internal) :
    ('/' ∉ l.path → l.Subdir = []) ∧
    ('/' ∈ l.path →
      goSplit '/' l.Subdir =
        (goSplit '/' l.path).take (min ((goSplit '/' l.path).length - 1) 3) ∧
      (goSplit '/' l.Subdir).length ≤ 3) := by
  constructor
  · intro h
    have h1 : (goSplit '/' l.path).length = 1 :=
      (goSplit_length_eq_one_iff '/' l.path).mpr h
    unfold Filename.Internal.Subdir
    simp [h1]
  · intro h
    have h1 : (goSplit '/' l.path).length ≠ 1 :=
      fun he => ((goSplit_length_eq_one_iff '/' l.path).mp he) h
    have hpos := goSplit_length_pos '/' l.path
    have h2 : 1 < (goSplit '/' l.path).length := by omega
    have hsub : l.Subdir =
        goJoin '/' ((goSplit '/' l.path).take (min ((goSplit '/' l.path).length - 1) 3)) := by
      unfold Filename.Internal.Subdir
      rw [if_neg (by omega)]
    have htake_ne : (goSplit '/' l.path).take (min ((goSplit '/' l.path).length - 1) 3) ≠ [] := by
      intro he
      rcases List.take_eq_nil_iff.mp he with h3 | h3
      · omega
      · exact goSplit_ne_nil '/' l.path h3
    have hpieces : ∀ p ∈ (goSplit '/' l.path).take (min ((goSplit '/' l.path).length - 1) 3),
        '/' ∉ p :=
      fun p hp => goSplit_pieces_no_sep '/' l.path p (List.take_subset _ _ hp)
    rw [hsub, goSplit_goJoin '/' _ htake_ne hpieces]
    refine ⟨rfl, ?_⟩
    simp only [List.length_take]
    omega

/-- Witness for C8: a path with no separator yields the empty grouping key,
and a five-segment path yields its first three segments. -/
theorem Internal_Subdir_spec_witness :
    Filename.Internal.Subdir ⟨"abc".data⟩ = [] ∧
    (goSplit '/' (Filename.Internal.Subdir ⟨"a/b/c/d/e".data⟩) =
      (goSplit '/' ("a/b/c/d/e".data)).take
        (min ((goSplit '/' ("a/b/c/d/e".data)).length - 1) 3) ∧
    (goSplit '/' (Filename.Internal.Subdir ⟨"a/b/c/d/e".data⟩)).length ≤ 3) :=
  ⟨(Internal_Subdir_spec ⟨"abc".data⟩).1 (by decide),
   (Internal_Subdir_spec ⟨"a/b/c/d/e".data⟩).2 (by decide)⟩

/-- **C9.** For every `SystemPath` `s` and watched root `r`,
`s.Internal(r)` equals `s` with the leading root prefixed part removed when
`s` begins with `r`, and equals `s` unchanged otherwise; no error is raised
and no normalization is performed, so a path that does not lie under the
watched root becomes a tar member name equal to its full absolute path. -/
theorem System_Internal_spec (s rootDirectory : Filename.System) :
    (goStartsWith s.path rootDirectory.path = true →
      rootDirectory.path ++ (Filename.System.Internal s rootDirectory).path = s.path) ∧
    (goStartsWith s.path rootDirectory.path = false →
      (Filename.System.Internal s rootDirectory).path = s.path) := by
  constructor
  · intro h
    unfold Filename.System.Internal goTrimStart
    simp only [h, if_true]
    exact goStartsWith_append s.path rootDirectory.path h
  · intro h
    unfold Filename.System.Internal goTrimStart
    simp [h]

/-- Witness for C9: a path under the root loses the root; a path outside the
root is kept whole. -/
theorem System_Internal_spec_witness :
    "/cache/".data ++ (Filename.System.Internal ⟨"/cache/a/b".data⟩ ⟨"/cache/".data⟩).path =
      "/cache/a/b".data ∧
    (Filename.System.Internal ⟨"/other/x".data⟩ ⟨"/cache/".data⟩).path = "/other/x".data :=
  ⟨(System_Internal_spec ⟨"/cache/a/b".data⟩ ⟨"/cache/".data⟩).1 (by decide),
   (System_Internal_spec ⟨"/other/x".data⟩ ⟨"/cache/".data⟩).2 (by decide)⟩

/-! ## The backoff retrier (`backoff/retry.go`)

The fallible operation `f` is modelled by the list of outcomes of its
successive invocations (`Attempt`: wall-clock duration and whether the Go
error was non-nil).  The random source `rand.Int63n(ns/2)` is modelled by a
stream of naturals `draws`, reduced modulo `maxBackoff/2` exactly as
`Int63n` bounds its result (the Go call panics for a nonpositive bound; the
theorems assume `2 ≤ maxBackoff`).  `Retry` returns `none` when the modelled
prefix of invocations contains no success — the Go loop is still running —
and otherwise the trace of everything the loop did before returning. -/

/-- One invocation of the retried operation: its wall-clock duration and
whether it failed (`err != nil`). -/
structure Attempt where
  duration : Nat
  fails : Bool
deriving DecidableEq, Repr

/-- The record of one iteration of the retry loop body (one failed attempt):
the delay on entry, the random draw consumed (0 when none was), the duration
slept, the doubled delay left for the next iteration, and whether the
max-backoff ceiling was hit. -/
structure RetryIter where
  preWait : Nat
  draw : Nat
  slept : Nat
  postWait : Nat
  ceilingHit : Bool
deriving DecidableEq, Repr

/-- Everything observable that `Retry` did before returning: the histogram
observations made by `timeOf` (duration, `err != nil` label), the loop
iterations, and the two prometheus counters (`pusher_retries_total` and
`pusher_max_retries_total` for the fixed label). -/
structure RetryTrace where
  histObs : List (Nat × Bool)
  iters : List RetryIter
  retries : Nat
  maxRetries : Nat
deriving DecidableEq, Repr

namespace backoff

/-- The loop of `backoff.Retry`, recursing over the modelled invocation
outcomes.  Mirrors: histogram observation on every attempt (`timeOf`), and
for a failed attempt the ceiling redraw `ns/2 + rand.Int63n(ns/2)` when
`waitTime > maxBackoff`, the max-retries counter, the retries counter, the
sleep, and the doubling of the delay. -/
def retryGo (maxBackoff : Nat) : List Attempt → List Nat → Nat → Option RetryTrace
  | [], _, _ => none
  | a :: rest, draws, waitTime =>
    if a.fails then
      (retryGo maxBackoff rest
          (if maxBackoff < waitTime then draws.tail else draws)
          ((if maxBackoff < waitTime then maxBackoff / 2 + draws.headD 0 % (maxBackoff / 2)
            else waitTime) * 2)).map
        (fun tr =>
          ⟨(a.duration, a.fails) :: tr.histObs,
           ⟨waitTime, draws.headD 0,
            (if maxBackoff < waitTime then maxBackoff / 2 + draws.headD 0 % (maxBackoff / 2)
             else waitTime),
            (if maxBackoff < waitTime then maxBackoff / 2 + draws.headD 0 % (maxBackoff / 2)
             else waitTime) * 2,
            decide (maxBackoff < waitTime)⟩ :: tr.iters,
           tr.retries + 1,
           tr.maxRetries + if maxBackoff < waitTime then 1 else 0⟩)
    else
      some ⟨[(a.duration, a.fails)], [], 0, 0⟩

/-- `backoff.Retry(f, initialBackoff, maxBackoff, label)`: `none` when the
modelled prefix of invocations has no success (the loop is still running),
otherwise the trace of the run up to and including the successful attempt. -/
def Retry (attempts : List Attempt) (draws : List Nat)
    (initialBackoff maxBackoff : Nat) : Option RetryTrace :=
  retryGo maxBackoff attempts draws initialBackoff

/-- The delays chain: each iteration enters with the delay the previous
iteration left behind, the first with `initialBackoff`. -/
def ItersChained (w : Nat) : List RetryIter → Prop
  | [] => True
  | i :: rest => i.preWait = w ∧ ItersChained i.postWait rest

/-- What one loop iteration looks like: the delay doubles after the sleep,
and when the entering delay exceeds `maxBackoff` the slept duration is the
redraw `maxBackoff/2 + draw % (maxBackoff/2)`, which lies in
`[maxBackoff/2, maxBackoff)`, and the ceiling counter is hit; otherwise the
entering delay itself is slept and the ceiling counter is untouched. -/
def IterOk (maxBackoff : Nat) (i : RetryIter) : Prop :=
  i.postWait = 2 * i.slept ∧
  (if maxBackoff < i.preWait then
    i.ceilingHit = true ∧ i.slept = maxBackoff / 2 + i.draw % (maxBackoff / 2) ∧
      maxBackoff / 2 ≤ i.slept ∧ i.slept < maxBackoff
  else
    i.ceilingHit = false ∧ i.slept = i.preWait)

theorem retryGo_spec (maxBackoff : Nat) (hmax : 2 ≤ maxBackoff)
    (attempts : List Attempt) :
    ∀ (draws : List Nat) (w : Nat),
      ((retryGo maxBackoff attempts draws w).isSome ↔
        attempts.any (fun a => !a.fails) = true) ∧
      (∀ tr, retryGo maxBackoff attempts draws w = some tr →
        ItersChained w tr.iters ∧ (∀ i ∈ tr.iters, IterOk maxBackoff i) ∧
        tr.maxRetries = (tr.iters.filter (fun i => i.ceilingHit)).length) := by
  induction attempts with
  | nil =>
    intro draws w
    constructor
    · simp [retryGo]
    · intro tr htr
      simp [retryGo] at htr
  | cons a rest ih =>
    intro draws w
    by_cases ha : a.fails = true
    · have heq : retryGo maxBackoff (a :: rest) draws w =
          (retryGo maxBackoff rest
              (if maxBackoff < w then draws.tail else draws)
              ((if maxBackoff < w then maxBackoff / 2 + draws.headD 0 % (maxBackoff / 2)
                else w) * 2)).map
            (fun tr =>
              ⟨(a.duration, a.fails) :: tr.histObs,
               ⟨w, draws.headD 0,
                (if maxBackoff < w then maxBackoff / 2 + draws.headD 0 % (maxBackoff / 2)
                 else w),
                (if maxBackoff < w then maxBackoff / 2 + draws.headD 0 % (maxBackoff / 2)
                 else w) * 2,
                decide (maxBackoff < w)⟩ :: tr.iters,
               tr.retries + 1,
               tr.maxRetries + if maxBackoff < w then 1 else 0⟩) := by
        rw [retryGo, if_pos ha]
      obtain ⟨ih1, ih2⟩ := ih (if maxBackoff < w then draws.tail else draws)
        ((if maxBackoff < w then maxBackoff / 2 + draws.headD 0 % (maxBackoff / 2)
          else w) * 2)
      constructor
      · rw [heq]
        cases hr : retryGo maxBackoff rest
            (if maxBackoff < w then draws.tail else draws)
            ((if maxBackoff < w then maxBackoff / 2 + draws.headD 0 % (maxBackoff / 2)
              else w) * 2) with
        | none =>
          rw [hr] at ih1
          simpa [ha] using ih1
        | some tr0 =>
          rw [hr] at ih1
          simpa [ha] using ih1
      · intro tr htr
        rw [heq] at htr
        cases hr : retryGo maxBackoff rest
            (if maxBackoff < w then draws.tail else draws)
            ((if maxBackoff < w then maxBackoff / 2 + draws.headD 0 % (maxBackoff / 2)
              else w) * 2) with
        | none => rw [hr] at htr; simp at htr
        | some tr0 =>
          rw [hr] at htr
          simp only [Option.map_some', Option.some.injEq] at htr
          subst htr
          obtain ⟨hch, hok, hcnt⟩ := ih2 tr0 hr
          refine ⟨⟨rfl, hch⟩, ?_, ?_⟩
          · intro i hi
            rcases List.mem_cons.mp hi with h1 | h2
            · subst h1
              unfold IterOk
              dsimp only
              constructor
              · exact Nat.mul_comm _ 2
              · by_cases hw : maxBackoff < w
                · rw [if_pos hw]
                  have hhalf : 0 < maxBackoff / 2 := by omega
                  have hmod := Nat.mod_lt (draws.headD 0) hhalf
                  refine ⟨by simp [hw], by simp [hw], ?_, ?_⟩
                  · simp only [if_pos hw]
                    omega
                  · simp only [if_pos hw]
                    omega
                · rw [if_neg hw]
                  exact ⟨by simp [hw], by simp [hw]⟩
            · exact hok i h2
          · simp only [List.filter_cons]
            by_cases hw : maxBackoff < w
            · simp [hw, hcnt]
            · simp [hw, hcnt]
    · have ha' : a.fails = false := by simpa using ha
      have heq : retryGo maxBackoff (a :: rest) draws w =
          some ⟨[(a.duration, a.fails)], [], 0, 0⟩ := by
        rw [retryGo, if_neg ha]
      constructor
      · rw [heq]
        simp [ha']
      · intro tr htr
        rw [heq] at htr
        simp only [Option.some.injEq] at htr
        subst htr
        refine ⟨trivial, by simp, by simp⟩

/-- Counting lemma for the retry loop: the retries counter counts exactly
the failed attempts, there is a histogram observation for every attempt
made (failed or not), the observations are the processed prefix of
attempts, and the run is failures followed by one success. -/
theorem retryGo_counters (maxBackoff : Nat) (attempts : List Attempt) :
    ∀ (draws : List Nat) (w : Nat) (tr : RetryTrace),
      retryGo maxBackoff attempts draws w = some tr →
        tr.retries = tr.iters.length ∧
        tr.histObs.length = tr.retries + 1 ∧
        tr.histObs = (attempts.take (tr.retries + 1)).map (fun a => (a.duration, a.fails)) ∧
        ∃ pre last, tr.histObs = pre ++ [(last, false)] ∧ ∀ p ∈ pre, p.2 = true := by
  induction attempts with
  | nil =>
    intro draws w tr htr
    simp [retryGo] at htr
  | cons a rest ih =>
    intro draws w tr htr
    by_cases ha : a.fails = true
    · rw [retryGo, if_pos ha] at htr
      cases hr : retryGo maxBackoff rest
          (if maxBackoff < w then draws.tail else draws)
          ((if maxBackoff < w then maxBackoff / 2 + draws.headD 0 % (maxBackoff / 2)
            else w) * 2) with
      | none => rw [hr] at htr; simp at htr
      | some tr0 =>
        rw [hr] at htr
        simp only [Option.map_some', Option.some.injEq] at htr
        subst htr
        obtain ⟨h1, h2, h3, pre, last, h4, h5⟩ := ih _ _ tr0 hr
        refine ⟨by simpa using h1, by simpa using h2, ?_, ?_⟩
        · dsimp only
          simp only [List.take_succ_cons, List.map_cons]
          rw [h3]
        · refine ⟨(a.duration, a.fails) :: pre, last, by simp [h4], ?_⟩
          intro p hp
          rcases List.mem_cons.mp hp with hp1 | hp2
          · rw [hp1, ha]
          · exact h5 p hp2
    · have ha' : a.fails = false := by simpa using ha
      rw [retryGo, if_neg ha] at htr
      simp only [Option.some.injEq] at htr
      subst htr
      refine ⟨rfl, rfl, by simp [ha'], [], a.duration, by simp [ha'], by simp⟩

end backoff

/-! ## Claims C1 and C6: the backoff retrier -/

/-- **C1.** `Retry(op, initialBackoff, maxBackoff, label)` returns only after
an invocation of `op` returns success — it never returns failure: over a
modelled finite prefix of invocations it returns iff the prefix contains a
success.  Between failed attempts it sleeps the current delay and then
doubles it, and whenever the current delay exceeds `maxBackoff` the sleep is
instead drawn from `[maxBackoff/2, maxBackoff)` (the redraw
`maxBackoff/2 + draw % (maxBackoff/2)`) and the ceiling-hit counter
`pusher_max_retries_total` is incremented — it equals the number of
ceiling-hit iterations. -/
theorem Retry_never_fails_and_backs_off (attempts : List Attempt) (draws : List Nat)
    (initialBackoff maxBackoff : Nat) (hmax : 2 ≤ maxBackoff) :
    ((backoff.Retry attempts draws initialBackoff maxBackoff).isSome ↔
      attempts.any (fun a => !a.fails) = true) ∧
    ∀ tr, backoff.Retry attempts draws initialBackoff maxBackoff = some tr →
      backoff.ItersChained initialBackoff tr.iters ∧
      (∀ i ∈ tr.iters, backoff.IterOk maxBackoff i) ∧
      tr.maxRetries = (tr.iters.filter (fun i => i.ceilingHit)).length :=
  backoff.retryGo_spec maxBackoff hmax attempts draws initialBackoff

/-- Witness for C1: a run with two failures starting above the ceiling.  The
first sleep is the redraw `150 + 77 % 150 = 227`, the second redraws with
draw 0 giving `150`, both hit the ceiling, and the run returns after the
successful third attempt. -/
theorem Retry_never_fails_and_backs_off_witness :
    (backoff.Retry [⟨1, true⟩, ⟨1, true⟩, ⟨2, false⟩] [77] 400 300).isSome = true ∧
    backoff.ItersChained 400 [⟨400, 77, 227, 454, true⟩, ⟨454, 0, 150, 300, true⟩] ∧
    backoff.IterOk 300 ⟨400, 77, 227, 454, true⟩ := by
  have h := Retry_never_fails_and_backs_off [⟨1, true⟩, ⟨1, true⟩, ⟨2, false⟩] [77] 400 300
    (by decide)
  have htr : backoff.Retry [⟨1, true⟩, ⟨1, true⟩, ⟨2, false⟩] [77] 400 300 =
      some ⟨[(1, true), (1, true), (2, false)],
            [⟨400, 77, 227, 454, true⟩, ⟨454, 0, 150, 300, true⟩], 2, 2⟩ := by
    rfl
  obtain ⟨hch, hok, _⟩ := h.2 _ htr
  exact ⟨h.1.mpr (by decide), hch, hok _ (List.mem_cons_self _ _)⟩

/-- **C6 counterexample.** An operation that succeeds on its very first
attempt: `Retry` makes one attempt (one histogram observation) but the
per-label attempt counter `pusher_retries_total` is not incremented at all —
contradicting the claim that every attempt, including the first and the
final successful one, increments it. -/
theorem Retry_counter_cex :
    (backoff.Retry [⟨5, false⟩] [] 100 300).map (fun tr => tr.histObs.length) = some 1 ∧
    (backoff.Retry [⟨5, false⟩] [] 100 300).map (fun tr => tr.retries) = some 0 :=
  ⟨rfl, rfl⟩

/-- **C6 (amended).** Every attempt made by `Retry` — including the first and
the final successful one — records the attempt's wall-clock duration in the
histogram labeled by whether the attempt failed; the per-label attempt
counter `pusher_retries_total`, however, is incremented only for failed
attempts, so it equals the number of failed attempts (the loop iterations)
and the single successful attempt does not increment it.  The run is a
sequence of failure-labeled observations followed by one success-labeled
observation. -/
theorem Retry_counters_spec (attempts : List Attempt) (draws : List Nat)
    (initialBackoff maxBackoff : Nat) :
    ∀ tr, backoff.Retry attempts draws initialBackoff maxBackoff = some tr →
      tr.retries = tr.iters.length ∧
      tr.histObs.length = tr.retries + 1 ∧
      tr.histObs = (attempts.take (tr.retries + 1)).map (fun a => (a.duration, a.fails)) ∧
      ∃ pre last, tr.histObs = pre ++ [(last, false)] ∧ ∀ p ∈ pre, p.2 = true :=
  fun tr htr => backoff.retryGo_counters maxBackoff attempts draws initialBackoff tr htr

/-- Witness for C6 (amended): a run with one failure and one success has
retries counter 1 = number of loop iterations and two histogram
observations. -/
theorem Retry_counters_spec_witness :
    (RetryTrace.mk [(1, true), (2, false)] [⟨100, 0, 100, 200, false⟩] 1 0).retries =
      (RetryTrace.mk [(1, true), (2, false)] [⟨100, 0, 100, 200, false⟩] 1 0).iters.length ∧
    (RetryTrace.mk [(1, true), (2, false)] [⟨100, 0, 100, 200, false⟩] 1 0).histObs.length =
      (RetryTrace.mk [(1, true), (2, false)] [⟨100, 0, 100, 200, false⟩] 1 0).retries + 1 := by
  have h := Retry_counters_spec [⟨1, true⟩, ⟨2, false⟩] [] 100 300
    ⟨[(1, true), (2, false)], [⟨100, 0, 100, 200, false⟩], 1, 0⟩ rfl
  exact ⟨h.1, h.2.1⟩

/-! ## The tarfile builder (`tarfile/tarfile.go`)

Go maps are modelled as association lists in insertion order (Go randomizes
iteration order; none of the claims proved below depends on it).  The
tar/gzip writer pair is modelled as the list of members written to the
stream plus a byte count: the compressed length of the buffer is abstracted
as the cumulative payload length, which is all the claims use of it.
`rand.Float64()` draws are passed in as rationals (constrained to `[0,1)`
where a claim needs it), as is the per-datatype sampling ratio.  `os.Remove`
outcomes are a function parameter, and the clock is an `Int` parameter.
The timer handle stores the subdirectory it was armed for; the ghost fields
`armCount`/`stopCount` record how often the timer was armed and stopped. -/

/-- `alookup k l`: Go map lookup on an insertion-ordered association list. -/
def alookup {κ β : Type} [DecidableEq κ] (k : κ) : List (κ × β) → Option β
  | [] => none
  | (k', v) :: rest => if k' = k then some v else alookup k rest

/-- `aset k v l`: Go map assignment `l[k] = v`. -/
def aset {κ β : Type} [DecidableEq κ] (k : κ) (v : β) : List (κ × β) → List (κ × β)
  | [] => [(k, v)]
  | (k', v') :: rest => if k' = k then (k', v) :: rest else (k', v') :: aset k v rest

/-- `aremove k l`: Go map deletion `delete(l, k)`. -/
def aremove {κ β : Type} [DecidableEq κ] (k : κ) (l : List (κ × β)) : List (κ × β) :=
  l.filter (fun p => p.1 ≠ k)

/-- The result of `file.Stat()`: size and modification time. -/
structure FileStat where
  size : Int
  modTime : Int
deriving DecidableEq, Repr

/-- The `osFile` interface handed to `tarfile.Add`: `Name()`, the outcome of
`Stat()` (`none` = error), and the outcome of reading the contents
(`none` = read error). -/
structure OsFile where
  name : GoStr
  statResult : Option FileStat
  readResult : Option (List Nat)
deriving DecidableEq, Repr

/-- A `*time.Timer` handle: the subdirectory it was armed for and whether
`Stop()` has been called on it. -/
structure TimerH where
  subdir : GoStr
  stopped : Bool
deriving DecidableEq, Repr

/-- A tar header as written by `tarfile.Add`: name, mode, size, mtime and
the PAX records. -/
structure TarHeader where
  name : GoStr
  mode : Nat
  size : Int
  modTime : Int
  pax : List (GoStr × GoStr)
deriving DecidableEq, Repr

/-- The `condition` label on the file-removal metrics (`add_file` /
`skip_file` in the source). -/
inductive RmCond where
  | addFile
  | skipFile
deriving DecidableEq, Repr

namespace tarfile

/-- The state of a `tarfile.tarfile`, its written archive, and the
per-datatype prometheus metrics it touches. -/
structure TarfileState where
  timeout : Option TimerH
  members : List (Filename.Internal × GoStr)
  skipped : List (Filename.Internal × GoStr)
  archive : List (TarHeader × List Nat)
  contentsLen : Nat
  closedTar : Bool
  closedGzip : Bool
  subdir : GoStr
  datatype : GoStr
  fileRatio : ℚ
  metadata : List (GoStr × GoStr)
  dupSkip : Nat
  dupAdd : Nat
  filesSkippedC : Nat
  fileReadErrors : Nat
  filesAdded : Nat
  bytesPerFileObs : List Int
  filesRemovedSkip : Nat
  filesRemovedAdd : Nat
  removeErrSkip : Nat
  removeErrAdd : Nat
  emptyUploads : Nat
  tarfilesUploaded : Nat
  filesPerTarfileObs : List Nat
  bytesPerTarfileObs : List Nat
  successTimestamp : Option Int
  uploads : List (GoStr × List (TarHeader × List Nat))
  armCount : Nat
  stopCount : Nat
deriving DecidableEq

/-- `tarfile.New(subdir, datatype, ratio, metadata)`: a fresh tarfile with
empty writers and sets and `metadata["MLAB.datatype"] = datatype`. -/
def New (subdir datatype : GoStr) (ratio : ℚ) (metadata : List (GoStr × GoStr)) :
    TarfileState :=
  { timeout := none
    members := []
    skipped := []
    archive := []
    contentsLen := 0
    closedTar := false
    closedGzip := false
    subdir := subdir
    datatype := datatype
    fileRatio := ratio
    metadata := aset "MLAB.datatype".data datatype metadata
    dupSkip := 0
    dupAdd := 0
    filesSkippedC := 0
    fileReadErrors := 0
    filesAdded := 0
    bytesPerFileObs := []
    filesRemovedSkip := 0
    filesRemovedAdd := 0
    removeErrSkip := 0
    removeErrAdd := 0
    emptyUploads := 0
    tarfilesUploaded := 0
    filesPerTarfileObs := []
    bytesPerTarfileObs := []
    successTimestamp := none
    uploads := []
    armCount := 0
    stopCount := 0 }

/-- `tarfile.Add(cleanedFilename, file, timerFactory)`.  In order: the
duplicate-in-skipped check, the duplicate-in-members check, the sampling
draw (`rand.Float64() >= fileRatio` skips), `Stat` (error counts and
returns), the `bytes_per_file` observation, the read (error counts and
returns), the header+contents write with the PAX metadata, and finally —
arming the timer iff this is the first member — the member registration.
The timer factory is modelled by arming a handle for the subdirectory. -/
def Add (t : TarfileState) (cleanedFilename : Filename.Internal) (file : OsFile)
    (draw : ℚ) : TarfileState :=
  if (alookup cleanedFilename t.skipped).isSome then
    { t with dupSkip := t.dupSkip + 1 }
  else if (alookup cleanedFilename t.members).isSome then
    { t with dupAdd := t.dupAdd + 1 }
  else if t.fileRatio ≤ draw then
    { t with skipped := t.skipped ++ [(cleanedFilename, file.name)]
             filesSkippedC := t.filesSkippedC + 1 }
  else
    match file.statResult with
    | none => { t with fileReadErrors := t.fileReadErrors + 1 }
    | some fstat =>
      match file.readResult with
      | none =>
        { t with bytesPerFileObs := t.bytesPerFileObs ++ [fstat.size]
                 fileReadErrors := t.fileReadErrors + 1 }
      | some contents =>
        { t with
          bytesPerFileObs := t.bytesPerFileObs ++ [fstat.size]
          archive := t.archive ++
            [(⟨cleanedFilename.path, 0o666, fstat.size, fstat.modTime, t.metadata⟩,
              contents)]
          contentsLen := t.contentsLen + contents.length
          timeout := if t.members = [] then some ⟨t.subdir, false⟩ else t.timeout
          armCount := if t.members = [] then t.armCount + 1 else t.armCount
          filesAdded := t.filesAdded + 1
          members := t.members ++ [(cleanedFilename, file.name)] }

/-- `tarfile.removeFile(filename, condition)`: one `os.Remove` attempt,
counted as removed or as a remove error under the given condition label. -/
def removeFile (t : TarfileState) (rm : GoStr → Bool) (fname : GoStr)
    (cond : RmCond) : TarfileState :=
  if rm fname then
    match cond with
    | RmCond.skipFile => { t with filesRemovedSkip := t.filesRemovedSkip + 1 }
    | RmCond.addFile => { t with filesRemovedAdd := t.filesRemovedAdd + 1 }
  else
    match cond with
    | RmCond.skipFile => { t with removeErrSkip := t.removeErrSkip + 1 }
    | RmCond.addFile => { t with removeErrAdd := t.removeErrAdd + 1 }

/-- `tarfile.UploadAndDelete(uploader)`: delete the skipped files, return
early (counting an empty upload and stamping the success timestamp) when no
member was admitted; otherwise stop the timer if armed, close both writers,
observe the member/byte histograms, upload with infinite retry (recorded in
`uploads` — `backoff.Retry` never returns failure), count the upload, stamp
the success timestamp, and remove the member source files. -/
def UploadAndDelete (t : TarfileState) (rm : GoStr → Bool) (now : Int) :
    TarfileState :=
  let t1 := t.skipped.foldl (fun s p => removeFile s rm p.2 RmCond.skipFile) t
  if t1.members = [] then
    { t1 with emptyUploads := t1.emptyUploads + 1
              successTimestamp := some now }
  else
    let t2 :=
      if t1.timeout.isSome then
        { t1 with timeout := t1.timeout.map (fun th => { th with stopped := true })
                  stopCount := t1.stopCount + 1 }
      else t1
    let t3 :=
      { t2 with closedTar := true
                closedGzip := true
                filesPerTarfileObs := t2.filesPerTarfileObs ++ [t2.members.length]
                bytesPerTarfileObs := t2.bytesPerTarfileObs ++ [t2.contentsLen] }
    let t4 :=
      { t3 with uploads := t3.uploads ++ [(t3.subdir, t3.archive)]
                tarfilesUploaded := t3.tarfilesUploaded + 1
                successTimestamp := some now }
    t4.members.foldl (fun s p => removeFile s rm p.2 RmCond.addFile) t4

/-- `tarfile.Size()`: the length of the gzipped-tar buffer, abstracted as
the cumulative payload length. -/
def Size (t : TarfileState) : Nat := t.contentsLen

/-- `tarfile.SkippedCount()`. -/
def SkippedCount (t : TarfileState) : Nat := t.skipped.length

/-- The tarfile states reachable in a tarfile's life before its flush:
freshly constructed, or an admission step later. -/
inductive Reachable : TarfileState → Prop
  | new (subdir datatype : GoStr) (ratio : ℚ) (metadata : List (GoStr × GoStr)) :
      Reachable (New subdir datatype ratio metadata)
  | add {t : TarfileState} (cleanedFilename : Filename.Internal) (file : OsFile)
      (draw : ℚ) (h : Reachable t) : Reachable (Add t cleanedFilename file draw)

end tarfile

/-! ## Assoc-list and tarfile invariant lemmas -/

theorem alookup_append_of_isSome {κ β : Type} [DecidableEq κ] (k : κ)
    (l l₂ : List (κ × β)) (h : (alookup k l).isSome = true) :
    alookup k (l ++ l₂) = alookup k l := by
  induction l with
  | nil => simp [alookup] at h
  | cons p rest ih =>
    rw [List.cons_append]
    show (if p.1 = k then some p.2 else alookup k (rest ++ l₂)) =
      if p.1 = k then some p.2 else alookup k rest
    have h' : (if p.1 = k then some p.2 else alookup k rest).isSome = true := h
    by_cases hp : p.1 = k
    · simp [hp]
    · rw [if_neg hp] at h' ⊢
      rw [if_neg hp]
      exact ih h'

theorem alookup_append_of_none {κ β : Type} [DecidableEq κ] (k : κ)
    (l l₂ : List (κ × β)) (h : alookup k l = none) :
    alookup k (l ++ l₂) = alookup k l₂ := by
  induction l with
  | nil => simp
  | cons p rest ih =>
    rw [List.cons_append]
    show (if p.1 = k then some p.2 else alookup k (rest ++ l₂)) = alookup k l₂
    have h' : (if p.1 = k then some p.2 else alookup k rest) = none := h
    by_cases hp : p.1 = k
    · rw [if_pos hp] at h'
      simp at h'
    · rw [if_neg hp] at h' ⊢
      exact ih h'

theorem alookup_single {κ β : Type} [DecidableEq κ] (k k₀ : κ) (v₀ : β) :
    alookup k [(k₀, v₀)] = if k₀ = k then some v₀ else none := by
  show (if k₀ = k then some v₀ else alookup k []) = _
  by_cases hp : k₀ = k <;> simp [hp, alookup]

/-- The number of members of the written archive carrying a given name. -/
def archCount (name : Filename.Internal) (arch : List (TarHeader × List Nat)) : Nat :=
  (arch.filter (fun m => m.1.name = name.path)).length

theorem archCount_append (name : Filename.Internal) (h : TarHeader) (b : List Nat)
    (arch : List (TarHeader × List Nat)) :
    archCount name (arch ++ [(h, b)]) =
      archCount name arch + (if h.name = name.path then 1 else 0) := by
  unfold archCount
  rw [List.filter_append]
  by_cases hn : h.name = name.path
  · simp [hn]
  · simp [hn]

namespace tarfile

/-! ### Branch equations for `Add` -/

theorem Add_dupSkip_eq (t : TarfileState) (name : Filename.Internal) (file : OsFile)
    (draw : ℚ) (h : (alookup name t.skipped).isSome = true) :
    Add t name file draw = { t with dupSkip := t.dupSkip + 1 } := by
  unfold Add
  rw [if_pos h]

theorem Add_dupAdd_eq (t : TarfileState) (name : Filename.Internal) (file : OsFile)
    (draw : ℚ) (h1 : alookup name t.skipped = none)
    (h2 : (alookup name t.members).isSome = true) :
    Add t name file draw = { t with dupAdd := t.dupAdd + 1 } := by
  unfold Add
  rw [if_neg (by simp [h1]), if_pos h2]

theorem Add_skip_eq (t : TarfileState) (name : Filename.Internal) (file : OsFile)
    (draw : ℚ) (h1 : alookup name t.skipped = none)
    (h2 : alookup name t.members = none) (h3 : t.fileRatio ≤ draw) :
    Add t name file draw =
      { t with skipped := t.skipped ++ [(name, file.name)]
               filesSkippedC := t.filesSkippedC + 1 } := by
  unfold Add
  rw [if_neg (by simp [h1]), if_neg (by simp [h2]), if_pos h3]

theorem Add_statErr_eq (t : TarfileState) (name : Filename.Internal) (file : OsFile)
    (draw : ℚ) (h1 : alookup name t.skipped = none)
    (h2 : alookup name t.members = none) (h3 : ¬t.fileRatio ≤ draw)
    (h4 : file.statResult = none) :
    Add t name file draw = { t with fileReadErrors := t.fileReadErrors + 1 } := by
  unfold Add
  rw [if_neg (by simp [h1]), if_neg (by simp [h2]), if_neg h3, h4]

theorem Add_readErr_eq (t : TarfileState) (name : Filename.Internal) (file : OsFile)
    (draw : ℚ) (fstat : FileStat) (h1 : alookup name t.skipped = none)
    (h2 : alookup name t.members = none) (h3 : ¬t.fileRatio ≤ draw)
    (h4 : file.statResult = some fstat) (h5 : file.readResult = none) :
    Add t name file draw =
      { t with bytesPerFileObs := t.bytesPerFileObs ++ [fstat.size]
               fileReadErrors := t.fileReadErrors + 1 } := by
  unfold Add
  rw [if_neg (by simp [h1]), if_neg (by simp [h2]), if_neg h3, h4, h5]

theorem Add_admit_eq (t : TarfileState) (name : Filename.Internal) (file : OsFile)
    (draw : ℚ) (fstat : FileStat) (contents : List Nat)
    (h1 : alookup name t.skipped = none) (h2 : alookup name t.members = none)
    (h3 : ¬t.fileRatio ≤ draw) (h4 : file.statResult = some fstat)
    (h5 : file.readResult = some contents) :
    Add t name file draw =
      { t with
        bytesPerFileObs := t.bytesPerFileObs ++ [fstat.size]
        archive := t.archive ++
          [(⟨name.path, 0o666, fstat.size, fstat.modTime, t.metadata⟩, contents)]
        contentsLen := t.contentsLen + contents.length
        timeout := if t.members = [] then some ⟨t.subdir, false⟩ else t.timeout
        armCount := if t.members = [] then t.armCount + 1 else t.armCount
        filesAdded := t.filesAdded + 1
        members := t.members ++ [(name, file.name)] } := by
  unfold Add
  rw [if_neg (by simp [h1]), if_neg (by simp [h2]), if_neg h3, h4, h5]

/-! ### The state invariant and its preservation -/

/-- The tarfile state invariant: the archive holds exactly one member named
`p` for every admitted `p` and none otherwise; no name is both admitted and
skipped; the timer handle is non-null iff the admitted set is non-empty; the
timer was armed exactly once iff the admitted set is non-empty; the timer
was never stopped (a stop happens only inside `UploadAndDelete`). -/
def TfInv (t : TarfileState) : Prop :=
  (∀ name : Filename.Internal,
    archCount name t.archive = if (alookup name t.members).isSome then 1 else 0) ∧
  (∀ name : Filename.Internal,
    ¬((alookup name t.members).isSome = true ∧ (alookup name t.skipped).isSome = true)) ∧
  ((t.timeout.isSome = true) ↔ t.members ≠ []) ∧
  (t.armCount = if t.members = [] then 0 else 1) ∧
  t.stopCount = 0

theorem reachable_inv (t : TarfileState) (hr : Reachable t) : TfInv t := by
  induction hr with
  | new subdir datatype ratio metadata =>
    refine ⟨fun name => ?_, fun name => ?_, ?_, ?_, ?_⟩ <;>
      simp [New, archCount, alookup]
  | add cleanedFilename file draw h ih =>
    rename_i t0
    obtain ⟨i1, i2, i3, i4, i5⟩ := ih
    by_cases h1 : (alookup cleanedFilename t0.skipped).isSome = true
    · rw [Add_dupSkip_eq t0 _ file draw h1]
      exact ⟨i1, i2, i3, i4, i5⟩
    · have h1' : alookup cleanedFilename t0.skipped = none :=
        Option.not_isSome_iff_eq_none.mp (by simpa using h1)
      by_cases h2 : (alookup cleanedFilename t0.members).isSome = true
      · rw [Add_dupAdd_eq t0 _ file draw h1' h2]
        exact ⟨i1, i2, i3, i4, i5⟩
      · have h2' : alookup cleanedFilename t0.members = none :=
          Option.not_isSome_iff_eq_none.mp (by simpa using h2)
        by_cases h3 : t0.fileRatio ≤ draw
        · rw [Add_skip_eq t0 _ file draw h1' h2' h3]
          refine ⟨i1, fun name => ?_, i3, i4, i5⟩
          intro ⟨hna, hnb⟩
          have hnb' : (alookup name (t0.skipped ++ [(cleanedFilename, file.name)])).isSome
              = true := hnb
          by_cases hsk : (alookup name t0.skipped).isSome = true
          · exact i2 name ⟨hna, hsk⟩
          · have hsk' : alookup name t0.skipped = none :=
              Option.not_isSome_iff_eq_none.mp (by simpa using hsk)
            rw [alookup_append_of_none name _ _ hsk', alookup_single] at hnb'
            by_cases hnn : cleanedFilename = name
            · subst hnn
              exact h2 hna
            · rw [if_neg hnn] at hnb'
              simp at hnb'
        · cases hst : file.statResult with
          | none =>
            rw [Add_statErr_eq t0 _ file draw h1' h2' h3 hst]
            exact ⟨i1, i2, i3, i4, i5⟩
          | some fstat =>
            cases hrd : file.readResult with
            | none =>
              rw [Add_readErr_eq t0 _ file draw fstat h1' h2' h3 hst hrd]
              exact ⟨i1, i2, i3, i4, i5⟩
            | some contents =>
              rw [Add_admit_eq t0 _ file draw fstat contents h1' h2' h3 hst hrd]
              refine ⟨fun name => ?_, fun name => ?_, ?_, ?_, i5⟩
              · show archCount name (t0.archive ++ _) =
                  if (alookup name (t0.members ++ [(cleanedFilename, file.name)])).isSome
                  then 1 else 0
                rw [archCount_append]
                by_cases hnn : cleanedFilename = name
                · subst hnn
                  rw [alookup_append_of_none _ _ _ h2', alookup_single]
                  have hz : archCount cleanedFilename t0.archive = 0 := by
                    rw [i1 cleanedFilename, h2']
                    simp
                  simp [hz]
                · have hload : alookup name (t0.members ++ [(cleanedFilename, file.name)]) =
                      alookup name t0.members := by
                    cases hm : alookup name t0.members with
                    | some v =>
                      rw [alookup_append_of_isSome name _ _ (by rw [hm]; rfl), hm]
                    | none =>
                      rw [alookup_append_of_none name _ _ hm, alookup_single, if_neg hnn]
                  have hne : ¬((⟨cleanedFilename.path, 0o666, fstat.size, fstat.modTime,
                      t0.metadata⟩ : TarHeader).name = name.path) := by
                    intro he
                    refine hnn ?_
                    cases cleanedFilename
                    cases name
                    simpa using he
                  rw [hload, i1 name, if_neg hne]
                  simp
              · intro ⟨hna, hnb⟩
                have hna' : (alookup name (t0.members ++ [(cleanedFilename, file.name)])).isSome
                    = true := hna
                by_cases hnn : cleanedFilename = name
                · subst hnn
                  have : (alookup cleanedFilename t0.skipped).isSome = true := hnb
                  rw [h1'] at this
                  simp at this
                · cases hm : alookup name t0.members with
                  | some v =>
                    exact i2 name ⟨by rw [hm]; rfl, hnb⟩
                  | none =>
                    rw [alookup_append_of_none name _ _ hm, alookup_single,
                      if_neg hnn] at hna'
                    simp at hna'
              · show ((if t0.members = [] then some (⟨t0.subdir, false⟩ : TimerH)
                    else t0.timeout).isSome = true) ↔
                  t0.members ++ [(cleanedFilename, file.name)] ≠ []
                by_cases hm : t0.members = []
                · simp [hm]
                · rw [if_neg hm]
                  simp only [i3]
                  constructor
                  · intro _
                    simp
                  · intro _
                    exact hm
              · show (if t0.members = [] then t0.armCount + 1 else t0.armCount) =
                  if t0.members ++ [(cleanedFilename, file.name)] = [] then 0 else 1
                by_cases hm : t0.members = []
                · simp [hm, i4]
                · rw [if_neg hm, if_neg (by simp), i4, if_neg hm]

/-! ### The removal folds of `UploadAndDelete` -/

theorem removeFile_shape (t : TarfileState) (rm : GoStr → Bool) (fname : GoStr)
    (cond : RmCond) :
    ∃ a b c d, removeFile t rm fname cond =
      { t with filesRemovedSkip := a
               filesRemovedAdd := b
               removeErrSkip := c
               removeErrAdd := d } := by
  unfold removeFile
  by_cases hrm : rm fname
  · rw [if_pos hrm]
    cases cond
    · exact ⟨_, _, _, _, rfl⟩
    · exact ⟨_, _, _, _, rfl⟩
  · rw [if_neg hrm]
    cases cond
    · exact ⟨_, _, _, _, rfl⟩
    · exact ⟨_, _, _, _, rfl⟩

theorem foldl_removeFile_shape (rm : GoStr → Bool) (cond : RmCond)
    (l : List (Filename.Internal × GoStr)) :
    ∀ t : TarfileState, ∃ a b c d,
      l.foldl (fun s p => removeFile s rm p.2 cond) t =
        { t with filesRemovedSkip := a
                 filesRemovedAdd := b
                 removeErrSkip := c
                 removeErrAdd := d } := by
  induction l with
  | nil =>
    intro t
    exact ⟨t.filesRemovedSkip, t.filesRemovedAdd, t.removeErrSkip, t.removeErrAdd, rfl⟩
  | cons p rest ih =>
    intro t
    obtain ⟨a, b, c, d, h1⟩ := removeFile_shape t rm p.2 cond
    obtain ⟨a', b', c', d', h2⟩ := ih (removeFile t rm p.2 cond)
    refine ⟨a', b', c', d', ?_⟩
    rw [List.foldl_cons, h2, h1]

theorem foldl_removeFile_members (rm : GoStr → Bool) (cond : RmCond)
    (l : List (Filename.Internal × GoStr)) (t : TarfileState) :
    (l.foldl (fun s p => removeFile s rm p.2 cond) t).members = t.members := by
  obtain ⟨a, b, c, d, hf⟩ := foldl_removeFile_shape rm cond l t
  rw [hf]

theorem foldl_removeFile_timeout (rm : GoStr → Bool) (cond : RmCond)
    (l : List (Filename.Internal × GoStr)) (t : TarfileState) :
    (l.foldl (fun s p => removeFile s rm p.2 cond) t).timeout = t.timeout := by
  obtain ⟨a, b, c, d, hf⟩ := foldl_removeFile_shape rm cond l t
  rw [hf]

theorem foldl_removeFile_stopCount (rm : GoStr → Bool) (cond : RmCond)
    (l : List (Filename.Internal × GoStr)) (t : TarfileState) :
    (l.foldl (fun s p => removeFile s rm p.2 cond) t).stopCount = t.stopCount := by
  obtain ⟨a, b, c, d, hf⟩ := foldl_removeFile_shape rm cond l t
  rw [hf]

theorem foldl_removeFile_uploads (rm : GoStr → Bool) (cond : RmCond)
    (l : List (Filename.Internal × GoStr)) (t : TarfileState) :
    (l.foldl (fun s p => removeFile s rm p.2 cond) t).uploads = t.uploads := by
  obtain ⟨a, b, c, d, hf⟩ := foldl_removeFile_shape rm cond l t
  rw [hf]

theorem foldl_removeFile_tarfilesUploaded (rm : GoStr → Bool) (cond : RmCond)
    (l : List (Filename.Internal × GoStr)) (t : TarfileState) :
    (l.foldl (fun s p => removeFile s rm p.2 cond) t).tarfilesUploaded =
      t.tarfilesUploaded := by
  obtain ⟨a, b, c, d, hf⟩ := foldl_removeFile_shape rm cond l t
  rw [hf]

theorem foldl_removeFile_emptyUploads (rm : GoStr → Bool) (cond : RmCond)
    (l : List (Filename.Internal × GoStr)) (t : TarfileState) :
    (l.foldl (fun s p => removeFile s rm p.2 cond) t).emptyUploads = t.emptyUploads := by
  obtain ⟨a, b, c, d, hf⟩ := foldl_removeFile_shape rm cond l t
  rw [hf]

theorem foldl_removeFile_archive (rm : GoStr → Bool) (cond : RmCond)
    (l : List (Filename.Internal × GoStr)) (t : TarfileState) :
    (l.foldl (fun s p => removeFile s rm p.2 cond) t).archive = t.archive := by
  obtain ⟨a, b, c, d, hf⟩ := foldl_removeFile_shape rm cond l t
  rw [hf]

theorem foldl_removeFile_closedTar (rm : GoStr → Bool) (cond : RmCond)
    (l : List (Filename.Internal × GoStr)) (t : TarfileState) :
    (l.foldl (fun s p => removeFile s rm p.2 cond) t).closedTar = t.closedTar := by
  obtain ⟨a, b, c, d, hf⟩ := foldl_removeFile_shape rm cond l t
  rw [hf]

/-- The skipped-files removal pass counts one removal or one removal error
per skipped path. -/
theorem foldl_removeFile_skip_counts (rm : GoStr → Bool)
    (l : List (Filename.Internal × GoStr)) :
    ∀ t : TarfileState,
      ((l.foldl (fun s p => removeFile s rm p.2 RmCond.skipFile) t).filesRemovedSkip =
        t.filesRemovedSkip + (l.filter (fun p => rm p.2)).length) ∧
      ((l.foldl (fun s p => removeFile s rm p.2 RmCond.skipFile) t).removeErrSkip =
        t.removeErrSkip + (l.filter (fun p => !rm p.2)).length) := by
  induction l with
  | nil =>
    intro t
    simp
  | cons p rest ih =>
    intro t
    obtain ⟨ih1, ih2⟩ := ih (removeFile t rm p.2 RmCond.skipFile)
    by_cases hrm : rm p.2
    · have h1 : removeFile t rm p.2 RmCond.skipFile =
          { t with filesRemovedSkip := t.filesRemovedSkip + 1 } := by
        unfold removeFile
        rw [if_pos hrm]
      constructor
      · rw [List.foldl_cons, ih1, h1]
        simp [List.filter_cons, hrm]
        omega
      · rw [List.foldl_cons, ih2, h1]
        simp [List.filter_cons, hrm]
    · have h1 : removeFile t rm p.2 RmCond.skipFile =
          { t with removeErrSkip := t.removeErrSkip + 1 } := by
        unfold removeFile
        rw [if_neg hrm]
      constructor
      · rw [List.foldl_cons, ih1, h1]
        simp [List.filter_cons, hrm]
      · rw [List.foldl_cons, ih2, h1]
        simp [List.filter_cons, hrm]
        omega

/-- The skipped-files removal pass does not touch the `add_file`-labeled
removal counters. -/
theorem foldl_removeFile_skip_add_pres (rm : GoStr → Bool)
    (l : List (Filename.Internal × GoStr)) :
    ∀ t : TarfileState,
      ((l.foldl (fun s p => removeFile s rm p.2 RmCond.skipFile) t).filesRemovedAdd =
        t.filesRemovedAdd) ∧
      ((l.foldl (fun s p => removeFile s rm p.2 RmCond.skipFile) t).removeErrAdd =
        t.removeErrAdd) := by
  induction l with
  | nil =>
    intro t
    exact ⟨rfl, rfl⟩
  | cons p rest ih =>
    intro t
    obtain ⟨ih1, ih2⟩ := ih (removeFile t rm p.2 RmCond.skipFile)
    rw [List.foldl_cons]
    refine ⟨ih1.trans ?_, ih2.trans ?_⟩ <;>
      · unfold removeFile
        by_cases hrm : rm p.2
        · rw [if_pos hrm]
        · rw [if_neg hrm]

end tarfile

/-! ## Claims C2, C3, C5 and C10: the tarfile builder -/

/-- **C2 counterexample.** A tarfile with sampling ratio 0: the first `Add`
of `a/b` places it in the skipped set, the second increments the duplicate
counter tagged `skip_file` — but the archive then holds **zero** tar members
named `a/b`, not exactly one as the claim states for a path in either set. -/
theorem Add_duplicate_cex :
    (tarfile.Add
      (tarfile.Add (tarfile.New "a".data "dt".data 0 [])
        ⟨"a/b".data⟩ ⟨"/r/a/b".data, none, none⟩ 0)
      ⟨"a/b".data⟩ ⟨"/r/a/b".data, none, none⟩ 0).dupSkip = 1 ∧
    archCount ⟨"a/b".data⟩
      (tarfile.Add
        (tarfile.Add (tarfile.New "a".data "dt".data 0 [])
          ⟨"a/b".data⟩ ⟨"/r/a/b".data, none, none⟩ 0)
        ⟨"a/b".data⟩ ⟨"/r/a/b".data, none, none⟩ 0).archive = 0 := by
  constructor <;> decide

/-- **C2 (amended).** For every reachable Tarfile and every `InternalPath`
`p` already present in the admitted set or in the skipped set, a second
`Add` of `p` increments only the duplicates counter tagged with the set that
contained `p` and has no other side effect on the Tarfile's state; the
archive keeps exactly one tar member named `p` when `p` was admitted and
none when `p` was skipped. -/
theorem Add_duplicate_spec (t : tarfile.TarfileState) (hr : tarfile.Reachable t)
    (name : Filename.Internal) (file : OsFile) (draw : ℚ) :
    ((alookup name t.skipped).isSome = true →
      (tarfile.Add t name file draw = { t with dupSkip := t.dupSkip + 1 } ∧
       archCount name t.archive = 0)) ∧
    (alookup name t.skipped = none → (alookup name t.members).isSome = true →
      (tarfile.Add t name file draw = { t with dupAdd := t.dupAdd + 1 } ∧
       archCount name t.archive = 1)) := by
  obtain ⟨i1, i2, _, _, _⟩ := tarfile.reachable_inv t hr
  constructor
  · intro h
    refine ⟨tarfile.Add_dupSkip_eq t name file draw h, ?_⟩
    have hm : ¬(alookup name t.members).isSome = true := fun hm => i2 name ⟨hm, h⟩
    rw [i1 name]
    simp [Option.not_isSome_iff_eq_none.mp hm]
  · intro h hm
    refine ⟨tarfile.Add_dupAdd_eq t name file draw h hm, ?_⟩
    rw [i1 name]
    simp [hm]

/-- Witness for C2 (amended): the ratio-0 tarfile with `a/b` skipped; the
second `Add` bumps only the `skip_file` duplicate counter and the archive
holds no member named `a/b`. -/
theorem Add_duplicate_spec_witness :
    tarfile.Add
      (tarfile.Add (tarfile.New "a".data "dt".data 0 [])
        ⟨"a/b".data⟩ ⟨"/r/a/b".data, none, none⟩ 0)
      ⟨"a/b".data⟩ ⟨"/r/a/b".data, none, none⟩ 0 =
    { tarfile.Add (tarfile.New "a".data "dt".data 0 [])
        ⟨"a/b".data⟩ ⟨"/r/a/b".data, none, none⟩ 0 with
      dupSkip := (tarfile.Add (tarfile.New "a".data "dt".data 0 [])
        ⟨"a/b".data⟩ ⟨"/r/a/b".data, none, none⟩ 0).dupSkip + 1 } ∧
    archCount ⟨"a/b".data⟩
      (tarfile.Add (tarfile.New "a".data "dt".data 0 [])
        ⟨"a/b".data⟩ ⟨"/r/a/b".data, none, none⟩ 0).archive = 0 :=
  (Add_duplicate_spec
    (tarfile.Add (tarfile.New "a".data "dt".data 0 [])
      ⟨"a/b".data⟩ ⟨"/r/a/b".data, none, none⟩ 0)
    (tarfile.Reachable.add ⟨"a/b".data⟩ ⟨"/r/a/b".data, none, none⟩ 0
      (tarfile.Reachable.new "a".data "dt".data 0 []))
    ⟨"a/b".data⟩ ⟨"/r/a/b".data, none, none⟩ 0).1 (by decide)

/-- **C3.** At every reachable point in a Tarfile's lifetime the age timer
handle is non-null iff the admitted member set is non-empty; it was armed
exactly once, by the `Add` call that admitted the first member (zero times
while the admitted set is empty, so skipped-only files never arm it); it was
never stopped before `UploadAndDelete`, and `UploadAndDelete` on a
non-empty tarfile stops it exactly once. -/
theorem tarfile_timer_lifecycle (t : tarfile.TarfileState) (hr : tarfile.Reachable t)
    (rm : GoStr → Bool) (now : Int) :
    ((t.timeout.isSome = true) ↔ t.members ≠ []) ∧
    (t.armCount = if t.members = [] then 0 else 1) ∧
    t.stopCount = 0 ∧
    (t.members ≠ [] → (tarfile.UploadAndDelete t rm now).stopCount = 1) := by
  obtain ⟨_, _, i3, i4, i5⟩ := tarfile.reachable_inv t hr
  refine ⟨i3, i4, i5, ?_⟩
  intro hm
  have hsm := tarfile.foldl_removeFile_members rm RmCond.skipFile t.skipped t
  have hst := tarfile.foldl_removeFile_timeout rm RmCond.skipFile t.skipped t
  have hsc := tarfile.foldl_removeFile_stopCount rm RmCond.skipFile t.skipped t
  simp only [tarfile.UploadAndDelete]
  rw [if_neg (by rw [hsm]; exact hm)]
  rw [if_pos (by rw [hst]; exact i3.mpr hm)]
  rw [tarfile.foldl_removeFile_stopCount]
  simp [hsc, i5]

/-- Witness for C3: a tarfile with one admitted member has an armed
(non-null) timer, arm count one, stop count zero, and `UploadAndDelete`
stops the timer exactly once. -/
theorem tarfile_timer_lifecycle_witness :
    ((tarfile.Add (tarfile.New "a".data "dt".data 1 [])
      ⟨"a/b".data⟩ ⟨"/r/a/b".data, some ⟨3, 5⟩, some [1, 2, 3]⟩ 0).timeout.isSome = true) ∧
    (tarfile.Add (tarfile.New "a".data "dt".data 1 [])
      ⟨"a/b".data⟩ ⟨"/r/a/b".data, some ⟨3, 5⟩, some [1, 2, 3]⟩ 0).armCount = 1 ∧
    (tarfile.UploadAndDelete
      (tarfile.Add (tarfile.New "a".data "dt".data 1 [])
        ⟨"a/b".data⟩ ⟨"/r/a/b".data, some ⟨3, 5⟩, some [1, 2, 3]⟩ 0)
      (fun _ => true) 7).stopCount = 1 := by
  obtain ⟨w1, w2, _, w4⟩ := tarfile_timer_lifecycle
    (tarfile.Add (tarfile.New "a".data "dt".data 1 [])
      ⟨"a/b".data⟩ ⟨"/r/a/b".data, some ⟨3, 5⟩, some [1, 2, 3]⟩ 0)
    (tarfile.Reachable.add ⟨"a/b".data⟩ ⟨"/r/a/b".data, some ⟨3, 5⟩, some [1, 2, 3]⟩ 0
      (tarfile.Reachable.new "a".data "dt".data 1 []))
    (fun _ => true) 7
  refine ⟨w1.mpr (by decide), ?_, w4 (by decide)⟩
  rw [w2]
  decide

/-- **C5.** For every Tarfile whose admitted set is empty, `UploadAndDelete`
first attempts removal of every skipped system path (each skipped path is
counted either as removed or as a removal error, non-fatally), then
increments the empty-uploads counter, stamps the success timestamp with the
current time, and returns without ever invoking the uploader (no upload is
recorded, the upload counter is untouched, the archive and writers are left
alone, and the `add_file` removal counters do not move). -/
theorem UploadAndDelete_empty_spec (t : tarfile.TarfileState) (rm : GoStr → Bool)
    (now : Int) (h : t.members = []) :
    (tarfile.UploadAndDelete t rm now).uploads = t.uploads ∧
    (tarfile.UploadAndDelete t rm now).tarfilesUploaded = t.tarfilesUploaded ∧
    (tarfile.UploadAndDelete t rm now).emptyUploads = t.emptyUploads + 1 ∧
    (tarfile.UploadAndDelete t rm now).successTimestamp = some now ∧
    (tarfile.UploadAndDelete t rm now).filesRemovedSkip =
      t.filesRemovedSkip + (t.skipped.filter (fun p => rm p.2)).length ∧
    (tarfile.UploadAndDelete t rm now).removeErrSkip =
      t.removeErrSkip + (t.skipped.filter (fun p => !rm p.2)).length ∧
    (tarfile.UploadAndDelete t rm now).filesRemovedAdd = t.filesRemovedAdd ∧
    (tarfile.UploadAndDelete t rm now).removeErrAdd = t.removeErrAdd ∧
    (tarfile.UploadAndDelete t rm now).archive = t.archive ∧
    (tarfile.UploadAndDelete t rm now).closedTar = t.closedTar := by
  have hsm := tarfile.foldl_removeFile_members rm RmCond.skipFile t.skipped t
  have hEq : tarfile.UploadAndDelete t rm now =
      { t.skipped.foldl (fun s p => tarfile.removeFile s rm p.2 RmCond.skipFile) t with
        emptyUploads :=
          (t.skipped.foldl (fun s p => tarfile.removeFile s rm p.2 RmCond.skipFile)
            t).emptyUploads + 1
        successTimestamp := some now } := by
    simp only [tarfile.UploadAndDelete]
    rw [if_pos (by rw [hsm]; exact h)]
  obtain ⟨hc1, hc2⟩ := tarfile.foldl_removeFile_skip_counts rm t.skipped t
  obtain ⟨hp1, hp2⟩ := tarfile.foldl_removeFile_skip_add_pres rm t.skipped t
  rw [hEq]
  refine ⟨?_, ?_, ?_, rfl, ?_, ?_, ?_, ?_, ?_, ?_⟩
  · simp [tarfile.foldl_removeFile_uploads]
  · simp [tarfile.foldl_removeFile_tarfilesUploaded]
  · simp [tarfile.foldl_removeFile_emptyUploads]
  · simpa using hc1
  · simpa using hc2
  · simpa using hp1
  · simpa using hp2
  · simp [tarfile.foldl_removeFile_archive]
  · simp [tarfile.foldl_removeFile_closedTar]

/-- Witness for C5: a ratio-0 tarfile holding one skipped file and no
admitted member; `UploadAndDelete` removes the skipped path (counting it),
bumps the empty-uploads counter, stamps the timestamp, and records no
upload. -/
theorem UploadAndDelete_empty_spec_witness :
    (tarfile.UploadAndDelete
      (tarfile.Add (tarfile.New "a".data "dt".data 0 [])
        ⟨"a/b".data⟩ ⟨"/r/a/b".data, none, none⟩ 0)
      (fun _ => true) 7).uploads = [] ∧
    (tarfile.UploadAndDelete
      (tarfile.Add (tarfile.New "a".data "dt".data 0 [])
        ⟨"a/b".data⟩ ⟨"/r/a/b".data, none, none⟩ 0)
      (fun _ => true) 7).emptyUploads = 1 ∧
    (tarfile.UploadAndDelete
      (tarfile.Add (tarfile.New "a".data "dt".data 0 [])
        ⟨"a/b".data⟩ ⟨"/r/a/b".data, none, none⟩ 0)
      (fun _ => true) 7).successTimestamp = some 7 ∧
    (tarfile.UploadAndDelete
      (tarfile.Add (tarfile.New "a".data "dt".data 0 [])
        ⟨"a/b".data⟩ ⟨"/r/a/b".data, none, none⟩ 0)
      (fun _ => true) 7).filesRemovedSkip = 1 := by
  obtain ⟨h1, _, h3, h4, h5, _⟩ := UploadAndDelete_empty_spec
    (tarfile.Add (tarfile.New "a".data "dt".data 0 [])
      ⟨"a/b".data⟩ ⟨"/r/a/b".data, none, none⟩ 0)
    (fun _ => true) 7 (by decide)
  refine ⟨?_, ?_, h4, ?_⟩
  · rw [h1]
    decide
  · rw [h3]
    decide
  · rw [h5]
    decide

/-! ## The tar cache event loop (`tarcache/tarcache.go`)

The select loop is modelled over an explicit stream of selector events: a
timer firing for a subdirectory, an inbound filename (with the outcome of
`os.Open` and the sampling draw it will use), the inbound channel being
closed, and the two context cancellations.  `ListenForever` consumes the
stream until it returns, handing back the final state together with the
events it never consumed.  The advisory `Lint` outcome, the `os.Remove`
outcomes and the clock live in an environment record.  Flushed tarfiles are
retained in the `flushed` field so that uploads stay observable. -/

namespace tarcache

/-- The environment of the tar cache loop: the advisory lint verdict for an
internal name (`Lint() != nil`), the `os.Remove` outcomes, and the clock. -/
structure TcEnv where
  lintWarns : Filename.Internal → Bool
  rm : GoStr → Bool
  now : Int

/-- The state of a `TarCache`: the per-subdirectory active tarfile map, the
immutable configuration, the metrics counters, and the flushed tarfiles. -/
structure TarCacheState where
  currentTarfile : List (GoStr × tarfile.TarfileState)
  rootDirectory : GoStr
  datatype : GoStr
  fileRatio : ℚ
  sizeThreshold : Nat
  metadata : List (GoStr × GoStr)
  strangeFilenames : Nat
  fileOpenErrors : Nat
  uploadCallsAge : Nat
  uploadCallsSize : Nat
  uploadCallsEmergency : Nat
  flushed : List tarfile.TarfileState
deriving DecidableEq

/-- `tarcache.New`: normalizes the root to end with `/` and starts with an
empty map. -/
def New (rootDirectory datatype : GoStr) (ratio : ℚ) (metadata : List (GoStr × GoStr))
    (sizeThreshold : Nat) : TarCacheState :=
  { currentTarfile := []
    rootDirectory :=
      if goEndsWith rootDirectory ['/'] then rootDirectory else rootDirectory ++ ['/']
    datatype := datatype
    fileRatio := ratio
    sizeThreshold := sizeThreshold
    metadata := metadata
    strangeFilenames := 0
    fileOpenErrors := 0
    uploadCallsAge := 0
    uploadCallsSize := 0
    uploadCallsEmergency := 0
    flushed := [] }

/-- `TarCache.uploadAndDelete(subdir)`: flush the tarfile for `subdir` and
drop it from the map; log-and-ignore when there is none. -/
def uploadAndDelete (env : TcEnv) (t : TarCacheState) (subdir : GoStr) :
    TarCacheState :=
  match alookup subdir t.currentTarfile with
  | some tf =>
    { t with currentTarfile := aremove subdir t.currentTarfile
             flushed := t.flushed ++ [tarfile.UploadAndDelete tf env.rm env.now] }
  | none => t

/-- `TarCache.add(fname)`: strip the root, lint (count offenders, do not
reject), open (count open failures and drop), group by `Subdir`, create the
subdirectory's tarfile lazily, `Tarfile.Add`, and flush on crossing the size
threshold (tagging the reason `size_threshold_met`). -/
def add (env : TcEnv) (t : TarCacheState) (fname : GoStr) (opened : Option OsFile)
    (draw : ℚ) : TarCacheState :=
  let internalName := Filename.System.Internal ⟨fname⟩ ⟨t.rootDirectory⟩
  let t1 :=
    if env.lintWarns internalName then
      { t with strangeFilenames := t.strangeFilenames + 1 }
    else t
  match opened with
  | none => { t1 with fileOpenErrors := t1.fileOpenErrors + 1 }
  | some file =>
    let subdir := Filename.Internal.Subdir internalName
    let t2 :=
      match alookup subdir t1.currentTarfile with
      | some _ => t1
      | none =>
        { t1 with currentTarfile := t1.currentTarfile ++
            [(subdir, tarfile.New subdir t1.datatype t1.fileRatio t1.metadata)] }
    match alookup subdir t2.currentTarfile with
    | none => t2
    | some tf =>
      let tf1 := tarfile.Add tf internalName file draw
      let t3 := { t2 with currentTarfile := aset subdir tf1 t2.currentTarfile }
      if t3.sizeThreshold < tarfile.Size tf1 then
        uploadAndDelete env { t3 with uploadCallsSize := t3.uploadCallsSize + 1 } subdir
      else t3

/-- `TarCache.uploadAll()`: emergency-flush every active tarfile (the Go
code does this in parallel under a wait group; the claims do not depend on
the interleaving, so the fold runs in map order), then clear the map. -/
def uploadAll (env : TcEnv) (t : TarCacheState) : TarCacheState :=
  let t1 := t.currentTarfile.foldl
    (fun s p =>
      { s with uploadCallsEmergency := s.uploadCallsEmergency + 1
               flushed := s.flushed ++ [tarfile.UploadAndDelete p.2 env.rm env.now] })
    t
  { t1 with currentTarfile := [] }

/-- One selector event of `ListenForever`. -/
inductive TcEvent where
  | timeout (subdir : GoStr)
  | fileArrival (fname : GoStr) (opened : Option OsFile) (draw : ℚ)
  | chanClosed
  | termDone
  | killDone
deriving DecidableEq

/-- The state transformation of one selected event, for the cases that keep
the loop running: a timer flush tagged `age_threshold_met`, an inbound
filename added, a closed channel (no state change — the loop just returns),
and the emergency flushes of the two cancellation cases. -/
def step (env : TcEnv) (t : TarCacheState) : TcEvent → TarCacheState
  | TcEvent.timeout subdir =>
    let t1 := uploadAndDelete env t subdir
    { t1 with uploadCallsAge := t1.uploadCallsAge + 1 }
  | TcEvent.fileArrival fname opened draw => add env t fname opened draw
  | TcEvent.chanClosed => t
  | TcEvent.termDone => uploadAll env t
  | TcEvent.killDone => uploadAll env t

/-- `TarCache.ListenForever(termCtx, killCtx)` over the event stream:
processes events until the inbound channel reports closed (return, no state
change) or `killCtx` fires (emergency flush, then return); returns the
final state and the unconsumed events. -/
def ListenForever (env : TcEnv) : TarCacheState → List TcEvent →
    TarCacheState × List TcEvent
  | t, [] => (t, [])
  | t, e :: rest =>
    match e with
    | TcEvent.chanClosed => (t, rest)
    | TcEvent.killDone => (uploadAll env t, rest)
    | TcEvent.timeout subdir =>
      ListenForever env (step env t (TcEvent.timeout subdir)) rest
    | TcEvent.fileArrival fname opened draw =>
      ListenForever env (step env t (TcEvent.fileArrival fname opened draw)) rest
    | TcEvent.termDone => ListenForever env (step env t TcEvent.termDone) rest

end tarcache

/-- **C4.** When the inbound filename channel is closed, the TarCache event
loop exits as soon as the closed-channel case is selected: whatever events
were handled before (none of them a close or a kill), the loop returns with
exactly the state those events produced — so the close itself performs no
`Tarfile.add` and no flush — and all filenames still buffered behind the
close remain unprocessed, handed back untouched. -/
theorem ListenForever_closed (env : tarcache.TcEnv) (t : tarcache.TarCacheState)
    (pre rest : List tarcache.TcEvent)
    (h : ∀ e ∈ pre, e ≠ tarcache.TcEvent.chanClosed ∧ e ≠ tarcache.TcEvent.killDone) :
    tarcache.ListenForever env t (pre ++ tarcache.TcEvent.chanClosed :: rest) =
      (pre.foldl (tarcache.step env) t, rest) := by
  induction pre generalizing t with
  | nil => rfl
  | cons e pre ih =>
    obtain ⟨h1, h2⟩ := h e (List.mem_cons_self e pre)
    have hrest : ∀ x ∈ pre,
        x ≠ tarcache.TcEvent.chanClosed ∧ x ≠ tarcache.TcEvent.killDone :=
      fun x hx => h x (List.mem_cons_of_mem e hx)
    rw [List.cons_append, List.foldl_cons]
    cases e with
    | timeout s => exact ih _ hrest
    | fileArrival f o d => exact ih _ hrest
    | chanClosed => exact absurd rfl h1
    | termDone => exact ih _ hrest
    | killDone => exact absurd rfl h2

/-- Witness for C4: one timer event is processed, then the close exits the
loop at once and the buffered file arrival behind it is handed back
unprocessed. -/
theorem ListenForever_closed_witness :
    tarcache.ListenForever ⟨fun _ => false, fun _ => true, 0⟩
      (tarcache.New "/r".data "dt".data 1 [] 1000)
      ([tarcache.TcEvent.timeout "x".data] ++ tarcache.TcEvent.chanClosed ::
        [tarcache.TcEvent.fileArrival "/r/a/b".data none 0]) =
      ([tarcache.TcEvent.timeout "x".data].foldl
        (tarcache.step ⟨fun _ => false, fun _ => true, 0⟩)
        (tarcache.New "/r".data "dt".data 1 [] 1000),
       [tarcache.TcEvent.fileArrival "/r/a/b".data none 0]) :=
  ListenForever_closed ⟨fun _ => false, fun _ => true, 0⟩
    (tarcache.New "/r".data "dt".data 1 [] 1000)
    [tarcache.TcEvent.timeout "x".data]
    [tarcache.TcEvent.fileArrival "/r/a/b".data none 0]
    (by decide)

/-- **C10.** In `Tarfile.Add`, when the sampling ratio equals 1 the skip
branch is unreachable for a draw in `[0, 1)` — no non-duplicate file is ever
placed in the skipped set (`skipped` and the skipped counter are unchanged
whatever `Stat`/read do) — and when the ratio equals 0 every non-duplicate
file is placed in the skipped set and none is admitted to the archive. -/
theorem Add_ratio_extremes (t : tarfile.TarfileState) (name : Filename.Internal)
    (file : OsFile) (draw : ℚ)
    (h1 : alookup name t.skipped = none) (h2 : alookup name t.members = none) :
    (t.fileRatio = 1 → 0 ≤ draw → draw < 1 →
      ((tarfile.Add t name file draw).skipped = t.skipped ∧
       (tarfile.Add t name file draw).filesSkippedC = t.filesSkippedC)) ∧
    (t.fileRatio = 0 → 0 ≤ draw →
      ((tarfile.Add t name file draw).skipped = t.skipped ++ [(name, file.name)] ∧
       (tarfile.Add t name file draw).members = t.members ∧
       (tarfile.Add t name file draw).archive = t.archive ∧
       (tarfile.Add t name file draw).filesAdded = t.filesAdded)) := by
  constructor
  · intro hrat h0 hlt
    have h3 : ¬t.fileRatio ≤ draw := by
      rw [hrat]
      intro hc
      exact absurd hlt (not_lt.mpr hc)
    cases hst : file.statResult with
    | none =>
      rw [tarfile.Add_statErr_eq t name file draw h1 h2 h3 hst]
      exact ⟨rfl, rfl⟩
    | some fstat =>
      cases hrd : file.readResult with
      | none =>
        rw [tarfile.Add_readErr_eq t name file draw fstat h1 h2 h3 hst hrd]
        exact ⟨rfl, rfl⟩
      | some contents =>
        rw [tarfile.Add_admit_eq t name file draw fstat contents h1 h2 h3 hst hrd]
        exact ⟨rfl, rfl⟩
  · intro hrat h0
    have h3 : t.fileRatio ≤ draw := by
      rw [hrat]
      exact h0
    rw [tarfile.Add_skip_eq t name file draw h1 h2 h3]
    exact ⟨rfl, rfl, rfl, rfl⟩

/-- Witness for C10: with ratio 1 and draw 0 the file is admitted, the
skipped set stays empty; with ratio 0 and draw 0 the file is skipped and
nothing reaches the archive. -/
theorem Add_ratio_extremes_witness :
    ((tarfile.Add (tarfile.New "a".data "dt".data 1 [])
        ⟨"a/b".data⟩ ⟨"/r/a/b".data, some ⟨3, 5⟩, some [1, 2, 3]⟩ 0).skipped =
      (tarfile.New "a".data "dt".data 1 []).skipped ∧
     (tarfile.Add (tarfile.New "a".data "dt".data 1 [])
        ⟨"a/b".data⟩ ⟨"/r/a/b".data, some ⟨3, 5⟩, some [1, 2, 3]⟩ 0).filesSkippedC =
      (tarfile.New "a".data "dt".data 1 []).filesSkippedC) ∧
    ((tarfile.Add (tarfile.New "a".data "dt".data 0 [])
        ⟨"a/b".data⟩ ⟨"/r/a/b".data, none, none⟩ 0).skipped =
      (tarfile.New "a".data "dt".data 0 []).skipped ++
        [(⟨"a/b".data⟩, "/r/a/b".data)] ∧
     (tarfile.Add (tarfile.New "a".data "dt".data 0 [])
        ⟨"a/b".data⟩ ⟨"/r/a/b".data, none, none⟩ 0).members =
      (tarfile.New "a".data "dt".data 0 []).members ∧
     (tarfile.Add (tarfile.New "a".data "dt".data 0 [])
        ⟨"a/b".data⟩ ⟨"/r/a/b".data, none, none⟩ 0).archive =
      (tarfile.New "a".data "dt".data 0 []).archive ∧
     (tarfile.Add (tarfile.New "a".data "dt".data 0 [])
        ⟨"a/b".data⟩ ⟨"/r/a/b".data, none, none⟩ 0).filesAdded =
      (tarfile.New "a".data "dt".data 0 []).filesAdded) :=
  ⟨(Add_ratio_extremes (tarfile.New "a".data "dt".data 1 []) ⟨"a/b".data⟩
      ⟨"/r/a/b".data, some ⟨3, 5⟩, some [1, 2, 3]⟩ 0 (by decide) (by decide)).1
    (by decide) (by decide) (by decide),
   (Add_ratio_extremes (tarfile.New "a".data "dt".data 0 []) ⟨"a/b".data⟩
      ⟨"/r/a/b".data, none, none⟩ 0 (by decide) (by decide)).2
    (by decide) (by decide)⟩

/-! ## The sweep finder (`finder/findfiles.go`)

`filepath.Walk` over a fixed tree is modelled by the list of entries it
visits (path, directory flag, mtime, size).  `findFiles` collects the
non-directory entries older than `maxFileAge` into a Go map and then sorts
the map's keys with `sort.Slice` by mtime — Go randomizes map iteration
order and `sort.Slice` is not stable, so the emission order of files with
equal mtimes is not determined.  This nondeterminism is modelled by the
`iter` parameter: any permutation of the eligible set can be the order the
map yields, and the unstable sort is refined by a deterministic sort of
`iter`; ranging over all `iter` yields exactly the possible outputs. -/

/-- One entry visited by `filepath.Walk`. -/
structure WalkEntry where
  path : GoStr
  isDir : Bool
  mtime : Int
  size : Int
deriving DecidableEq, Repr

namespace finder

/-- The comparison `sort.Slice` uses: `iInfo.ModTime().Before(jInfo.ModTime())`,
as a non-strict order for sortedness statements. -/
def entryLE (a b : WalkEntry) : Prop := a.mtime ≤ b.mtime

instance : DecidableRel entryLE :=
  fun a b => inferInstanceAs (Decidable (a.mtime ≤ b.mtime))

instance : IsTotal WalkEntry entryLE :=
  ⟨fun a b => Int.le_total a.mtime b.mtime⟩

instance : IsTrans WalkEntry entryLE :=
  ⟨fun _ _ _ h1 h2 => le_trans h1 h2⟩

/-- Strictly earlier mtime. -/
def entryLT (a b : WalkEntry) : Prop := a.mtime < b.mtime

instance : IsAntisymm WalkEntry entryLT :=
  ⟨fun _ _ h1 h2 => absurd (lt_trans h1 h2) (lt_irrefl _)⟩

/-- The collection phase of `findFiles`: the non-directory entries whose
mtime is before `eligibleTime = now - maxFileAge`
(`eligibleTime.After(info.ModTime())`). -/
def eligibleFiles (entries : List WalkEntry) (now maxFileAge : Int) :
    List WalkEntry :=
  entries.filter (fun e => !e.isDir && decide (e.mtime < now - maxFileAge))

/-- The emission phase of `findFiles`: sort the collected files by mtime and
emit their system paths in that order.  `iter` is the order the Go map
yields the collected set. -/
def findFiles (iter : List WalkEntry) : List GoStr :=
  (List.insertionSort entryLE iter).map (fun e => e.path)

end finder

/-- **C7 counterexample.** Two eligible files with equal mtimes: both
`[a, b]` and `[b, a]` are orders the randomized Go map can yield for the
same unchanged tree, and the two invocations emit the same set in different
orders — the sort compares only mtimes and is not stable, so repeated
invocations are not guaranteed the same order. -/
theorem findFiles_order_cex :
    ([⟨"a".data, false, 0, 1⟩, ⟨"b".data, false, 0, 1⟩] : List WalkEntry).Perm
      (finder.eligibleFiles
        [⟨"a".data, false, 0, 1⟩, ⟨"b".data, false, 0, 1⟩] 10 1) ∧
    ([⟨"b".data, false, 0, 1⟩, ⟨"a".data, false, 0, 1⟩] : List WalkEntry).Perm
      (finder.eligibleFiles
        [⟨"a".data, false, 0, 1⟩, ⟨"b".data, false, 0, 1⟩] 10 1) ∧
    finder.findFiles [⟨"a".data, false, 0, 1⟩, ⟨"b".data, false, 0, 1⟩] ≠
      finder.findFiles [⟨"b".data, false, 0, 1⟩, ⟨"a".data, false, 0, 1⟩] := by
  refine ⟨?_, ?_, ?_⟩ <;> decide

/-- **C7 (amended).** For a fixed, unchanging tree of aged regular files,
every invocation of the sweep finder emits exactly the set of regular files
with mtime more than `maxFileAge` in the past, as system paths in
mtime-ascending order; and when the eligible files' mtimes are pairwise
distinct, any two invocations emit the same list — files with equal mtimes,
however, may be emitted in different relative orders across invocations. -/
theorem findFiles_spec (entries : List WalkEntry) (now maxFileAge : Int)
    (iter : List WalkEntry)
    (hperm : iter.Perm (finder.eligibleFiles entries now maxFileAge)) :
    ((finder.findFiles iter).Perm
        ((finder.eligibleFiles entries now maxFileAge).map (fun e => e.path)) ∧
      (List.insertionSort finder.entryLE iter).Sorted finder.entryLE) ∧
    ((finder.eligibleFiles entries now maxFileAge).Pairwise
        (fun a b => a.mtime ≠ b.mtime) →
      ∀ iter₂, iter₂.Perm (finder.eligibleFiles entries now maxFileAge) →
        finder.findFiles iter₂ = finder.findFiles iter) := by
  have hps : (List.insertionSort finder.entryLE iter).Perm
      (finder.eligibleFiles entries now maxFileAge) :=
    (List.perm_insertionSort finder.entryLE iter).trans hperm
  constructor
  · constructor
    · exact hps.map (fun e => e.path)
    · exact List.sorted_insertionSort finder.entryLE iter
  · intro hdist iter₂ hperm₂
    have hps₂ : (List.insertionSort finder.entryLE iter₂).Perm
        (finder.eligibleFiles entries now maxFileAge) :=
      (List.perm_insertionSort finder.entryLE iter₂).trans hperm₂
    have hd1 : (List.insertionSort finder.entryLE iter).Pairwise
        (fun a b => a.mtime ≠ b.mtime) :=
      (hps.pairwise_iff (fun h => Ne.symm h)).mpr hdist
    have hd2 : (List.insertionSort finder.entryLE iter₂).Pairwise
        (fun a b => a.mtime ≠ b.mtime) :=
      (hps₂.pairwise_iff (fun h => Ne.symm h)).mpr hdist
    have hs1 : (List.insertionSort finder.entryLE iter).Sorted finder.entryLT :=
      ((List.sorted_insertionSort finder.entryLE iter).and hd1).imp
        (fun h => lt_of_le_of_ne h.1 h.2)
    have hs2 : (List.insertionSort finder.entryLE iter₂).Sorted finder.entryLT :=
      ((List.sorted_insertionSort finder.entryLE iter₂).and hd2).imp
        (fun h => lt_of_le_of_ne h.1 h.2)
    have heq : List.insertionSort finder.entryLE iter₂ =
        List.insertionSort finder.entryLE iter :=
      List.eq_of_perm_of_sorted (hps₂.trans hps.symm) hs2 hs1
    unfold finder.findFiles
    rw [heq]

/-- Witness for C7 (amended): two files with distinct mtimes; any map order
gives the same mtime-ascending emission. -/
theorem findFiles_spec_witness :
    (finder.findFiles [⟨"b".data, false, 5, 1⟩, ⟨"a".data, false, 0, 1⟩]).Perm
      ((finder.eligibleFiles
        [⟨"a".data, false, 0, 1⟩, ⟨"b".data, false, 5, 1⟩] 10 1).map
        (fun e => e.path)) ∧
    finder.findFiles [⟨"a".data, false, 0, 1⟩, ⟨"b".data, false, 5, 1⟩] =
      finder.findFiles [⟨"b".data, false, 5, 1⟩, ⟨"a".data, false, 0, 1⟩] := by
  obtain ⟨⟨p1, _⟩, p3⟩ := findFiles_spec
    [⟨"a".data, false, 0, 1⟩, ⟨"b".data, false, 5, 1⟩] 10 1
    [⟨"b".data, false, 5, 1⟩, ⟨"a".data, false, 0, 1⟩] (by decide)
  exact ⟨p1, p3 (by decide) _ (by decide)⟩

end Pusher
